import Mathlib

/-!
# Verification of the GenAI-Music harmonization and feature-encoding core

Shallow embedding of `scripts/accomp.py` (diatonic-triad construction,
symmetric-difference chord distance, modulation-aware chord detection, the
per-measure accompaniment loop) and `scripts/transform.py` (per-chord feature
extraction and batch aggregation).

The source delegates musical primitives (scales, key transposition, relative
keys, parsing) to the external `music21` library, whose code is not part of
this repository; those primitives are modelled from the specification and are
marked `Modelled from the spec:` in their doc comments.  Everything else —
loop structure, the strict-less-than running minimum, branch conditions,
set operations, field selection — is translated directly from the source.
-/

/-- The seven diatonic letter names of Western notation. -/
inductive Letter
  | C | D | E | F | G | A | B
deriving DecidableEq, Repr, Fintype

/-- Index of a letter in the C-based letter cycle (C = 0 … B = 6). -/
def Letter.idx : Letter → ℕ
  | .C => 0 | .D => 1 | .E => 2 | .F => 3 | .G => 4 | .A => 5 | .B => 6

/-- Letter with the given index in the C-based cycle (taken modulo 7). -/
def Letter.ofIdx (n : ℕ) : Letter :=
  if n % 7 = 0 then .C else if n % 7 = 1 then .D else if n % 7 = 2 then .E
  else if n % 7 = 3 then .F else if n % 7 = 4 then .G else if n % 7 = 5 then .A
  else .B

/-- Semitone offset of each natural letter above C (C major scale pattern). -/
def Letter.base : Letter → ℕ
  | .C => 0 | .D => 2 | .E => 4 | .F => 5 | .G => 7 | .A => 9 | .B => 11

/-- Move `j` letter steps up the cyclic letter sequence. -/
def Letter.add (l : Letter) (j : ℕ) : Letter := Letter.ofIdx (l.idx + j)

/-- Semitone span of `j` upward letter steps starting at `l` (within one octave). -/
def stepSemis (l : Letter) (j : ℕ) : ℕ := ((l.add j).base + 12 - l.base) % 12

/-- Mode of a key, `music21`-style — `'major'` or `'minor'`. -/
inductive Mode
  | major | minor
deriving DecidableEq, Repr, Fintype

/-- The opposite mode. -/
def Mode.opposite : Mode → Mode
  | .major => .minor
  | .minor => .major

/-- Modelled from the spec: semitone offset of diatonic scale degree `j`
(0-based, wrapping past 7) above the tonic — the major and natural-minor
interval patterns underlying "the 7 diatonic scale pitch classes" (§4.1). -/
def Mode.intervalAt (m : Mode) (j : ℕ) : ℕ :=
  (match m with
    | .major => [0, 2, 4, 5, 7, 9, 11]
    | .minor => [0, 2, 3, 5, 7, 8, 10]).getD (j % 7) 0

/-- A spelled pitch: letter, chromatic alteration (sharps positive, flats
negative) and octave, mirroring `music21.pitch.Pitch`. -/
structure Pitch where
  letter : Letter
  alter : ℤ
  octave : ℤ
deriving DecidableEq, Repr

/-- Stands for the `music21` pitch-name string (`p.name`, e.g. `"C#"`,
`"E-"`): the string is determined by — and determines — the letter and the
alteration, so the pair is an equality-faithful representation of it. -/
abbrev PCName := Letter × ℤ

/-- The octave-free name of a pitch (`p.name` in the source). -/
def Pitch.name (p : Pitch) : PCName := (p.letter, p.alter)

/-- Pitch class 0–11 (`p.pitchClass`): semitones above C, modulo 12. -/
def Pitch.pc (p : Pitch) : ℤ := ((p.letter.base : ℤ) + p.alter) % 12

/-- Pitch space (MIDI-style height, `p.ps`): octave plus chromatic position,
used to compare which pitch sounds lowest. -/
def Pitch.ps (p : Pitch) : ℤ := 12 * (p.octave + 1) + (p.letter.base : ℤ) + p.alter

/-- A key: tonic spelling plus mode, mirroring `music21.key.Key`. -/
structure Key where
  tonicLetter : Letter
  tonicAlter : ℤ
  mode : Mode
deriving DecidableEq, Repr

/-- The name of the key's tonic pitch (`key.tonic.name`). -/
def Key.tonicName (k : Key) : PCName := (k.tonicLetter, k.tonicAlter)

/-- Pitch class of the key's tonic. -/
def Key.tonicPC (k : Key) : ℤ := ((k.tonicLetter.base : ℤ) + k.tonicAlter) % 12

/-- Modelled from the spec: `music_key.getScale().getPitches()[j % 7]` —
degree `j` of the key's own diatonic scale (§4.1), spelled with consecutive
letters, ascending from the tonic octave. -/
def Key.scaleDeg (k : Key) (j : ℕ) : Pitch :=
  { letter := k.tonicLetter.add j
    alter := k.tonicAlter + (k.mode.intervalAt j : ℤ) - (stepSemis k.tonicLetter j : ℤ)
    octave := if 7 ≤ k.tonicLetter.idx + j % 7 then 5 else 4 }

/-- A `music21.chord.Chord`: an ordered list of spelled pitches (insertion
order is preserved by the library; the first pitch need not be the lowest). -/
structure Chord where
  pitches : List Pitch
deriving DecidableEq, Repr, Inhabited

/-- An element of a measure / note group: a pitched note or a rest, the only
two melodic element kinds the harmonization core distinguishes
(`isinstance(n, note.Note)` in the source). -/
inductive MElement
  | noteEl (p : Pitch) (quarterLength : ℚ)
  | restEl (quarterLength : ℚ)
deriving DecidableEq, Repr

/-- Whether the element is a pitched note (`isinstance(n, note.Note)`). -/
def MElement.isNote : MElement → Bool
  | .noteEl _ _ => true
  | .restEl _ => false

/-- The pitch-class name of a pitched element, `none` for a rest. -/
def MElement.noteName : MElement → Option PCName
  | .noteEl p _ => some p.name
  | .restEl _ => none

/-- Scale-degree labels for the two modes (`degree_names_major` /
`degree_names_minor` in `get_key_harmony_named`). -/
def degreeNames (m : Mode) : List String :=
  match m with
  | .major => ["I", "ii", "iii", "IV", "V", "vi", "vii°"]
  | .minor => ["i", "ii°", "III", "iv", "v", "VI", "VII"]

/-- `get_key_harmony_named` (accomp.py:9-21): the key's seven diatonic triads,
degree label ↦ stacked-thirds chord `[scale[i], scale[(i+2)%7], scale[(i+4)%7]]`.
The Python dict is insertion-ordered, so it is embedded as an association list
in scale-degree order. -/
def get_key_harmony_named (music_key : Key) : List (String × Chord) :=
  (degreeNames music_key.mode).enum.map fun p =>
    (p.2, ⟨[music_key.scaleDeg p.1,
            music_key.scaleDeg ((p.1 + 2) % 7),
            music_key.scaleDeg ((p.1 + 4) % 7)]⟩)

/-- The set of octave-free pitch names of a chord
(`set(p.name for p in chord_candidate.pitches)`). -/
def chordNameSet (c : Chord) : Finset PCName :=
  (c.pitches.map Pitch.name).toFinset

/-- The set of octave-free names of the pitched (non-rest) notes of a group
(`set(n.name for n in note_group if isinstance(n, note.Note))`). -/
def groupNameSet (note_group : List MElement) : Finset PCName :=
  (note_group.filterMap MElement.noteName).toFinset

/-- `chord_distance_no_octave` (accomp.py:24-28): size of the symmetric
difference between the chord's pitch-name set and the pitched notes' name set. -/
def chord_distance_no_octave (chord_candidate : Chord) (note_group : List MElement) : ℕ :=
  (symmDiff (chordNameSet chord_candidate) (groupNameSet note_group)).card

/-- Modelled from the spec: the tonic of `key.Key(tonic.transpose(7))` — the
pitch a perfect fifth above (four letter steps up, seven semitones, diatonic
spelling, §4.2). -/
def fifthUpTonic (l : Letter) (a : ℤ) : PCName :=
  (l.add 4, a + 7 - (stepSemis l 4 : ℤ))

/-- Modelled from the spec: the tonic of `key.Key(tonic.transpose(-7))` — the
pitch a perfect fifth below (the pitch whose upward perfect fifth is `(l, a)`,
§4.2). -/
def fifthDownTonic (l : Letter) (a : ℤ) : PCName :=
  (l.add 3, a - 7 + (stepSemis (l.add 3) 4 : ℤ))

/-- Modelled from the spec: `music_key.relative` — "the relative key (opposite
mode sharing the same key signature)" (§4.2): its tonic is scale degree 6 of a
major key (the relative minor) or scale degree 3 of a minor key (the relative
major). -/
def Key.relative (k : Key) : Key :=
  match k.mode with
  | .major => ⟨(k.scaleDeg 5).letter, (k.scaleDeg 5).alter, .minor⟩
  | .minor => ⟨(k.scaleDeg 2).letter, (k.scaleDeg 2).alter, .major⟩

/-- `get_common_modulation_keys` (accomp.py:31-37): the fixed ordered candidate
list `[music_key, fifth_up, fifth_down, relative]`.  The modes of `fifth_up`
and `fifth_down` are Modelled from the spec: "same mode" as the home key
(§4.2). -/
def get_common_modulation_keys (music_key : Key) : List Key :=
  let fifth_up : Key :=
    ⟨(fifthUpTonic music_key.tonicLetter music_key.tonicAlter).1,
     (fifthUpTonic music_key.tonicLetter music_key.tonicAlter).2, music_key.mode⟩
  let fifth_down : Key :=
    ⟨(fifthDownTonic music_key.tonicLetter music_key.tonicAlter).1,
     (fifthDownTonic music_key.tonicLetter music_key.tonicAlter).2, music_key.mode⟩
  [music_key, fifth_up, fifth_down, music_key.relative]

/-- The mutable search state of `detect_chord_with_modulation`
(`best_match`, `best_key`, `best_degree`, `min_distance`, accomp.py:43-46). -/
structure DetectState where
  best_match : Option Chord
  best_key : Option Key
  best_degree : Option String
  min_distance : ℕ∞
deriving DecidableEq

/-- The result dictionary of `detect_chord_with_modulation` (accomp.py:58-63). -/
structure HarmonyResult where
  key : Option Key
  chord : Option Chord
  degree : Option String
  distance : ℕ∞
deriving DecidableEq

/-- One iteration of the inner loop of `detect_chord_with_modulation`
(accomp.py:50-56): update the state iff the candidate's distance is strictly
below the running minimum. -/
def detectStep (note_group : List MElement) (cand_key : Key)
    (st : DetectState) (dc : String × Chord) : DetectState :=
  let dist := chord_distance_no_octave dc.2 note_group
  if (dist : ℕ∞) < st.min_distance then
    ⟨some dc.2, some cand_key, some dc.1, (dist : ℕ∞)⟩
  else st

/-- `detect_chord_with_modulation` (accomp.py:40-63): scan the four candidate
keys in order, each key's seven triads in degree order, keeping the running
minimum-distance candidate under strict less-than; `min_distance` starts at
`float('inf')`, embedded as `⊤ : ℕ∞`. -/
def detect_chord_with_modulation (note_group : List MElement) (base_key : Key) :
    HarmonyResult :=
  let candidate_keys := get_common_modulation_keys base_key
  let st := candidate_keys.foldl
    (fun st cand_key =>
      (get_key_harmony_named cand_key).foldl (detectStep note_group cand_key) st)
    ⟨none, none, none, ⊤⟩
  ⟨st.best_key, st.best_match, st.best_degree, st.min_distance⟩

/-- The full flattened candidate sequence scanned by
`detect_chord_with_modulation`: keys in `get_common_modulation_keys` order,
and within each key its seven triads in scale-degree order. -/
def modulationCandidates (base_key : Key) : List (Key × String × Chord) :=
  (get_common_modulation_keys base_key).flatMap fun ck =>
    (get_key_harmony_named ck).map fun dc => (ck, dc)

/-- Distance of one flattened candidate against a note group. -/
def candDist (note_group : List MElement) (e : Key × String × Chord) : ℕ :=
  chord_distance_no_octave e.2.2 note_group

/-- The search state recording one flattened candidate as current best. -/
def candState (note_group : List MElement) (e : Key × String × Chord) : DetectState :=
  ⟨some e.2.2, some e.1, some e.2.1, (candDist note_group e : ℕ∞)⟩

/-- A measure as consumed by the accompaniment loop: its melodic elements and
its total duration (`measure.duration`). -/
structure Measure where
  elements : List MElement
  duration : ℚ
deriving DecidableEq, Repr

/-- One event appended to the generated piano part: a chord carrying the
measure duration and the degree-label lyric, or a full-measure rest. -/
inductive AccompEvent
  | chordEv (c : Chord) (duration : ℚ) (lyric : Option String)
  | restEv (duration : ℚ)
deriving DecidableEq, Repr

/-- The per-measure chord-generation loop of `add_piano_accompaniment`
(accomp.py:95-108): for each measure take its pitched notes; with at least 3
of them run the modulation search and append the winning chord (stamped with
the measure's duration and the degree lyric) provided the chord object is
truthy (a non-`None` chord with at least one note, per Python truthiness);
otherwise append a rest spanning the measure.  The surrounding parsing, key
analysis and file I/O belong to external collaborators and are not modelled. -/
def measureEvents (base_key : Key) (measure : Measure) : List AccompEvent :=
  let notes_in_measure := measure.elements.filter MElement.isNote
  if 3 ≤ notes_in_measure.length then
    let result := detect_chord_with_modulation notes_in_measure base_key
    match result.chord with
    | some harmony_chord =>
      if harmony_chord.pitches.length ≠ 0 then
        [AccompEvent.chordEv harmony_chord measure.duration result.degree]
      else []
    | none => []
  else
    [AccompEvent.restEv measure.duration]

/-- The whole loop: the piano part is the in-order concatenation of the events
appended for each measure. -/
def generate_piano_events (measures : List Measure) (base_key : Key) :
    List AccompEvent :=
  measures.flatMap (measureEvents base_key)

/-- A chord event as seen by `extract_features_from_chord` (transform.py:5-39):
the ordered pitches plus the positional attributes the library reports.
`rootName` and `pitchedCommonName` are Modelled from the spec: they are
computed upstream by the external library's root-finding and chord-naming
heuristics (left unspecified, spec §9), so they are carried as data. -/
structure MChord where
  pitches : List Pitch
  quarterLength : ℚ
  beat : ℚ
  measureNumber : ℕ
  rootName : PCName
  pitchedCommonName : String
deriving DecidableEq, Repr

/-- The feature dictionary returned by `extract_features_from_chord`, with the
twelve duration-weighted pitch-class buckets as a function on `Fin 12`. -/
structure FeatureRow where
  measure : ℕ
  beat : ℚ
  duration : ℚ
  num_notes : ℕ
  root : Option PCName
  bass : Option PCName
  local_key : Option PCName
  mode : Option Mode
  pc_hist : Fin 12 → ℚ
  chord_name : String

/-- The pitch class of a pitch as a bucket index. -/
def Pitch.pcFin (p : Pitch) : Fin 12 := ⟨p.pc.toNat % 12, Nat.mod_lt _ (by norm_num)⟩

/-- `extract_features_from_chord` (transform.py:5-39).  The pitch-class
histogram adds the chord's own duration into each sounding pitch's bucket;
`bass` is `pitches[0].name if pitches else None` — the first listed pitch;
`root` is always emitted since every chord object answers `isChord`. -/
def extract_features_from_chord (ch : MChord) (current_key : Option Key) : FeatureRow :=
  let pitches := ch.pitches
  let duration := ch.quarterLength
  let pc_hist : Fin 12 → ℚ :=
    pitches.foldl (fun h p => Function.update h p.pcFin (h p.pcFin + duration))
      (fun _ => 0)
  { measure := ch.measureNumber
    beat := ch.beat
    duration := duration
    num_notes := pitches.length
    root := some ch.rootName
    bass := match pitches with
            | [] => none
            | p :: _ => some p.name
    local_key := current_key.map Key.tonicName
    mode := current_key.map Key.mode
    pc_hist := pc_hist
    chord_name := ch.pitchedCommonName }

/-- The lowest-sounding pitch of a list (minimum by pitch space), `none` for an
empty list.  This follows the spec's words "bass (lowest-sounding)" (§4.6) and
is the comparison point for the code's `pitches[0]`. -/
def lowestSounding : List Pitch → Option Pitch
  | [] => none
  | p :: rest => some (rest.foldl (fun b q => if q.ps < b.ps then q else b) p)

/-- The name of the lowest-sounding pitch of a list. -/
def lowestSoundingName (l : List Pitch) : Option PCName :=
  (lowestSounding l).map Pitch.name

/-- The parsed content of one `*Accomp.xml` file as `process_xml_file` sees it.
Modelled from the spec: the external parser/`chordify` re-derives the chord
events of the accompaniment staff, and `score.analyze` may fail, leaving the
key context `none` (transform.py:41-67). -/
structure ParsedScore where
  accompChords : List MChord
  analyzedKey : Option Key
deriving DecidableEq

/-- `process_xml_file` (transform.py:41-67): on a successfully parsed score,
one feature row per chord event of the accompaniment staff, in order; a parse
failure propagates as the exception the caller catches. -/
def process_xml_file (parsed : Except String ParsedScore) :
    Except String (List FeatureRow) :=
  parsed.map fun score =>
    score.accompChords.map fun elem =>
      extract_features_from_chord elem score.analyzedKey

/-- One input file of the batch walk: its path, the piece name (the containing
folder's base name) and the parse outcome delivered by the external parser. -/
structure AccompFile where
  path : String
  pieceName : String
  parsed : Except String ParsedScore

/-- `process_all_accomp_files` (transform.py:69-94), `concat=True` path: fold
over the discovered files in order; a file whose processing raises is logged
(`print` of the error) and skipped, a successful file's rows are tagged with
its piece name and its frame appended to `all_dfs`.  The final
`pd.concat(all_dfs, ignore_index=True)` concatenates the collected frames but
raises `ValueError` ("No objects to concatenate") when `all_dfs` is empty —
i.e. when no file was processed successfully; that abort is modelled as an
`Except.error`.  Returns (log lines, concatenated table or abort). -/
def process_all_accomp_files (files : List AccompFile) :
    List String × Except String (List (String × FeatureRow)) :=
  let acc := files.foldl
    (fun acc f =>
      match process_xml_file f.parsed with
      | .ok df => (acc.1, acc.2 ++ [df.map fun r => (f.pieceName, r)])
      | .error e => (acc.1 ++ ["Error processing " ++ f.path ++ ": " ++ e], acc.2))
    ([], [])
  (acc.1,
   if acc.2.isEmpty then Except.error "No objects to concatenate"
   else Except.ok acc.2.flatten)

/-- Number of feature rows a file contributes: its chord-event count if it
parses, zero otherwise. -/
def fileRowCount (f : AccompFile) : ℕ :=
  match f.parsed with
  | .ok score => score.accompChords.length
  | .error _ => 0

/-- Whether a file's parse failed. -/
def fileFailed (f : AccompFile) : Bool :=
  match f.parsed with
  | .ok _ => false
  | .error _ => true

/-- The tagged rows a file contributes to the aggregate table: its feature
rows paired with its piece name if it parses, nothing otherwise. -/
def fileRows (f : AccompFile) : List (String × FeatureRow) :=
  match f.parsed with
  | .ok score =>
      (score.accompChords.map fun elem =>
        extract_features_from_chord elem score.analyzedKey).map
        fun r => (f.pieceName, r)
  | .error _ => []

/-- The set of pitch classes of a chord, as integers 0-11 — the "3-element
pitch-class set" vocabulary of the spec (§4.1). -/
def chordPCSet (c : Chord) : Finset ℤ :=
  (c.pitches.map Pitch.pc).toFinset

/-! ### Concrete fixtures used by witnesses and counterexamples -/

/-- The key of C major. -/
def cMajorKey : Key := ⟨Letter.C, 0, Mode.major⟩

/-- Scenario A's note group: C4, E4, G4, one quarter note each. -/
def cTriadGroup : List MElement :=
  [MElement.noteEl ⟨Letter.C, 0, 4⟩ 1, MElement.noteEl ⟨Letter.E, 0, 4⟩ 1,
   MElement.noteEl ⟨Letter.G, 0, 4⟩ 1]

/-- A note group with no pitched notes (a whole-measure rest). -/
def allRestGroup : List MElement := [MElement.restEl 4]

/-- A measure holding the Scenario A note group plus a closing rest. -/
def fullMeasure : Measure :=
  ⟨cTriadGroup ++ [MElement.restEl 1], 4⟩

/-- A measure with only one pitched note. -/
def sparseMeasure : Measure :=
  ⟨[MElement.noteEl ⟨Letter.D, 0, 4⟩ 2, MElement.restEl 2], 4⟩

/-- An A-minor triad chord event listed root first — its first listed pitch
(A4) is not its lowest-sounding pitch (C4), the shape the pipeline's own
wraparound triads produce. -/
def wrapChord : MChord :=
  ⟨[⟨Letter.A, 0, 4⟩, ⟨Letter.C, 0, 4⟩, ⟨Letter.E, 0, 4⟩], 4, 1, 1,
   (Letter.A, 0), "a minor triad"⟩

/-- A C-major triad chord event listed in ascending order. -/
def ascChord : MChord :=
  ⟨[⟨Letter.C, 0, 4⟩, ⟨Letter.E, 0, 4⟩, ⟨Letter.G, 0, 4⟩], 4, 1, 1,
   (Letter.C, 0), "C major triad"⟩

/-- An accompaniment file that parses successfully, with two chord events. -/
def goodFile : AccompFile :=
  ⟨"data/piece/Song Accomp.xml", "piece",
   Except.ok ⟨[ascChord, wrapChord], some cMajorKey⟩⟩

/-- An accompaniment file whose parse fails. -/
def badFile : AccompFile :=
  ⟨"data/bad/Broken Accomp.xml", "bad", Except.error "failed to parse"⟩

/-! ## Basic facts about letters, scales and triads -/

theorem letterAdd_mod (l : Letter) (j : ℕ) : l.add (j % 7) = l.add j := by
  unfold Letter.add Letter.ofIdx
  have h : (l.idx + j % 7) % 7 = (l.idx + j) % 7 := by omega
  rw [h]

theorem stepSemis_mod (l : Letter) (j : ℕ) : stepSemis l (j % 7) = stepSemis l j := by
  unfold stepSemis
  rw [letterAdd_mod]

theorem intervalAt_mod (m : Mode) (j : ℕ) : m.intervalAt (j % 7) = m.intervalAt j := by
  unfold Mode.intervalAt
  have h : j % 7 % 7 = j % 7 := by omega
  rw [h]

theorem base_sub_stepSemis : ∀ (l : Letter) (j : Fin 7),
    (((l.add j.val).base : ℤ) - (stepSemis l j.val : ℤ)) % 12 = (l.base : ℤ) % 12 := by
  decide

/-- Diatonic spelling is pitch-class-correct: degree `j` of the scale sits
`intervalAt j` semitones above the tonic, modulo the octave. -/
theorem pc_scaleDeg (k : Key) (j : ℕ) :
    (k.scaleDeg j).pc
      = ((k.tonicLetter.base : ℤ) + k.tonicAlter + (k.mode.intervalAt j : ℤ)) % 12 := by
  have h := base_sub_stepSemis k.tonicLetter ⟨j % 7, Nat.mod_lt _ (by norm_num)⟩
  rw [letterAdd_mod, stepSemis_mod] at h
  show (((k.tonicLetter.add j).base : ℤ)
      + (k.tonicAlter + (k.mode.intervalAt j : ℤ) - (stepSemis k.tonicLetter j : ℤ))) % 12 = _
  omega

/-- The stacked-thirds triad on scale degree `i` (body of the loop of
`get_key_harmony_named`). -/
def triadAt (k : Key) (i : ℕ) : Chord :=
  ⟨[k.scaleDeg i, k.scaleDeg ((i + 2) % 7), k.scaleDeg ((i + 4) % 7)]⟩

theorem harmony_explicit (k : Key) :
    get_key_harmony_named k =
      [((degreeNames k.mode).getD 0 "", triadAt k 0),
       ((degreeNames k.mode).getD 1 "", triadAt k 1),
       ((degreeNames k.mode).getD 2 "", triadAt k 2),
       ((degreeNames k.mode).getD 3 "", triadAt k 3),
       ((degreeNames k.mode).getD 4 "", triadAt k 4),
       ((degreeNames k.mode).getD 5 "", triadAt k 5),
       ((degreeNames k.mode).getD 6 "", triadAt k 6)] := by
  rcases k with ⟨l, a, m⟩
  cases m <;> rfl

theorem harmony_length (k : Key) : (get_key_harmony_named k).length = 7 := by
  rw [harmony_explicit]
  rfl

theorem mem_harmony (k : Key) (dc : String × Chord) (h : dc ∈ get_key_harmony_named k) :
    ∃ i : ℕ, i < 7 ∧ dc = ((degreeNames k.mode).getD i "", triadAt k i) := by
  rw [harmony_explicit] at h
  simp only [List.mem_cons, List.not_mem_nil, or_false] at h
  rcases h with h | h | h | h | h | h | h
  · exact ⟨0, by omega, h⟩
  · exact ⟨1, by omega, h⟩
  · exact ⟨2, by omega, h⟩
  · exact ⟨3, by omega, h⟩
  · exact ⟨4, by omega, h⟩
  · exact ⟨5, by omega, h⟩
  · exact ⟨6, by omega, h⟩

theorem triad_letters_distinct : ∀ (l : Letter) (i : Fin 7),
    l.add i.val ≠ l.add ((i.val + 2) % 7) ∧ l.add i.val ≠ l.add ((i.val + 4) % 7)
      ∧ l.add ((i.val + 2) % 7) ≠ l.add ((i.val + 4) % 7) := by
  decide

/-- Every diatonic triad has three distinct pitch names (its three letters are
distinct), so its name set has exactly three elements. -/
theorem triad_nameSet_card (k : Key) (i : ℕ) (hi : i < 7) :
    (chordNameSet (triadAt k i)).card = 3 := by
  have h := triad_letters_distinct k.tonicLetter ⟨i, hi⟩
  have n01 : (k.scaleDeg i).name ≠ (k.scaleDeg ((i + 2) % 7)).name :=
    fun hEq => h.1 (congrArg Prod.fst hEq)
  have n02 : (k.scaleDeg i).name ≠ (k.scaleDeg ((i + 4) % 7)).name :=
    fun hEq => h.2.1 (congrArg Prod.fst hEq)
  have n12 : (k.scaleDeg ((i + 2) % 7)).name ≠ (k.scaleDeg ((i + 4) % 7)).name :=
    fun hEq => h.2.2 (congrArg Prod.fst hEq)
  show ((triadAt k i).pitches.map Pitch.name).toFinset.card = 3
  rw [List.toFinset_card_of_nodup]
  · rfl
  · simp [triadAt, n01, n02, n12]

theorem triad_pitches_length (k : Key) (i : ℕ) : (triadAt k i).pitches.length = 3 := rfl

/-! ## Characterization of the running-minimum search -/

theorem foldl_harmony_flatten (g : List MElement) (keys : List Key) (st : DetectState) :
    keys.foldl
        (fun st ck => (get_key_harmony_named ck).foldl (detectStep g ck) st) st
      = ((keys.flatMap fun ck => (get_key_harmony_named ck).map fun dc => (ck, dc)).foldl
          (fun st e => detectStep g e.1 st e.2) st) := by
  induction keys generalizing st with
  | nil => rfl
  | cons c cs ih =>
    simp only [List.flatMap_cons, List.foldl_append, List.foldl_map, List.foldl_cons]
    rw [ih]

theorem detectStep_update (g : List MElement) (st : DetectState) (e : Key × String × Chord)
    (h : (candDist g e : ℕ∞) < st.min_distance) :
    detectStep g e.1 st e.2 = candState g e := by
  simp only [detectStep, candState, candDist] at h ⊢
  rw [if_pos h]

theorem detectStep_keep (g : List MElement) (st : DetectState) (e : Key × String × Chord)
    (h : ¬ (candDist g e : ℕ∞) < st.min_distance) :
    detectStep g e.1 st e.2 = st := by
  simp only [detectStep, candDist] at h ⊢
  rw [if_neg h]

/-- The running minimum under strict less-than keeps, at the end of the scan,
the first element attaining the overall minimum distance — or the initial
state when nothing beats it. -/
theorem foldl_detect_spec (g : List MElement) :
    ∀ (l : List (Key × String × Chord)) (st : DetectState),
      (l.foldl (fun st e => detectStep g e.1 st e.2) st = st
          ∧ ∀ e ∈ l, st.min_distance ≤ (candDist g e : ℕ∞)) ∨
      (∃ i : Fin l.length,
          l.foldl (fun st e => detectStep g e.1 st e.2) st = candState g (l.get i)
          ∧ (candDist g (l.get i) : ℕ∞) < st.min_distance
          ∧ (∀ e ∈ l, candDist g (l.get i) ≤ candDist g e)
          ∧ ∀ j : Fin l.length, (j : ℕ) < (i : ℕ) →
              candDist g (l.get i) < candDist g (l.get j)) := by
  intro l
  induction l with
  | nil =>
    intro st
    left
    exact ⟨rfl, by simp⟩
  | cons a t ih =>
    intro st
    by_cases h : (candDist g a : ℕ∞) < st.min_distance
    · rcases ih (candState g a) with ⟨heq, hall⟩ | ⟨i, heq, hlt, hmin, hfirst⟩
      · right
        refine ⟨⟨0, by simp⟩, ?_, h, ?_, ?_⟩
        · simpa [List.foldl_cons, detectStep_update g st a h] using heq
        · intro e he
          rcases List.mem_cons.mp he with rfl | he
          · exact le_refl _
          · have := hall e he
            simp only [candState] at this
            exact_mod_cast this
        · intro j hj
          have h0 : (j : ℕ) < 0 := hj
          omega
      · right
        have hi1 : (i : ℕ) + 1 < (a :: t).length := by
          simp only [List.length_cons]
          omega
        have hget : (a :: t).get ⟨(i : ℕ) + 1, hi1⟩ = t.get i := by
          simp
        have hlt' : candDist g (t.get i) < candDist g a := by
          have : (candDist g (t.get i) : ℕ∞) < (candDist g a : ℕ∞) := by
            simpa [candState] using hlt
          exact_mod_cast this
        refine ⟨⟨(i : ℕ) + 1, hi1⟩, ?_, ?_, ?_, ?_⟩
        · rw [hget]
          simpa [List.foldl_cons, detectStep_update g st a h] using heq
        · rw [hget]
          exact lt_trans (by exact_mod_cast hlt') h
        · rw [hget]
          intro e he
          rcases List.mem_cons.mp he with rfl | he
          · exact le_of_lt hlt'
          · exact hmin e he
        · rw [hget]
          intro j hj
          rcases j with ⟨jv, hjv⟩
          match jv, hjv with
          | 0, _ => exact hlt'
          | jv + 1, hjv =>
            have hjv' : jv < t.length := by
              simp only [List.length_cons] at hjv
              omega
            have : candDist g (t.get i) < candDist g (t.get ⟨jv, hjv'⟩) := by
              apply hfirst ⟨jv, hjv'⟩
              simpa using hj
            simpa using this
    · rcases ih st with ⟨heq, hall⟩ | ⟨i, heq, hlt, hmin, hfirst⟩
      · left
        constructor
        · simpa [List.foldl_cons, detectStep_keep g st a h] using heq
        · intro e he
          rcases List.mem_cons.mp he with rfl | he
          · exact not_lt.mp h
          · exact hall e he
      · right
        have hi1 : (i : ℕ) + 1 < (a :: t).length := by
          simp only [List.length_cons]
          omega
        have hget : (a :: t).get ⟨(i : ℕ) + 1, hi1⟩ = t.get i := by
          simp
        have hlta : candDist g (t.get i) < candDist g a := by
          have h2 : (candDist g (t.get i) : ℕ∞) < (candDist g a : ℕ∞) :=
            lt_of_lt_of_le hlt (not_lt.mp h)
          exact_mod_cast h2
        refine ⟨⟨(i : ℕ) + 1, hi1⟩, ?_, ?_, ?_, ?_⟩
        · rw [hget]
          simpa [List.foldl_cons, detectStep_keep g st a h] using heq
        · rw [hget]
          exact hlt
        · rw [hget]
          intro e he
          rcases List.mem_cons.mp he with rfl | he
          · exact le_of_lt hlta
          · exact hmin e he
        · rw [hget]
          intro j hj
          rcases j with ⟨jv, hjv⟩
          match jv, hjv with
          | 0, _ => exact hlta
          | jv + 1, hjv =>
            have hjv' : jv < t.length := by
              simp only [List.length_cons] at hjv
              omega
            have : candDist g (t.get i) < candDist g (t.get ⟨jv, hjv'⟩) := by
              apply hfirst ⟨jv, hjv'⟩
              simpa using hj
            simpa using this

theorem modCands_length (k : Key) : (modulationCandidates k).length = 28 := by
  unfold modulationCandidates get_common_modulation_keys
  simp [harmony_length]

theorem mem_modCands (k : Key) (e : Key × String × Chord) (h : e ∈ modulationCandidates k) :
    ∃ ck, ck ∈ get_common_modulation_keys k ∧
      ∃ i, i < 7 ∧ e = (ck, (degreeNames ck.mode).getD i "", triadAt ck i) := by
  simp only [modulationCandidates, List.mem_flatMap, List.mem_map] at h
  obtain ⟨ck, hck, dc, hdc, hpair⟩ := h
  obtain ⟨i, hi, hshape⟩ := mem_harmony ck dc hdc
  exact ⟨ck, hck, i, hi, by rw [← hpair, hshape]⟩

/-- `detect_chord_with_modulation` returns the first flattened candidate
(keys in candidate order, degrees in scale order) attaining the minimal
distance, together with that distance. -/
theorem detect_spec (g : List MElement) (k : Key) :
    ∃ i : Fin (modulationCandidates k).length,
      detect_chord_with_modulation g k =
        ⟨some ((modulationCandidates k).get i).1,
         some ((modulationCandidates k).get i).2.2,
         some ((modulationCandidates k).get i).2.1,
         (candDist g ((modulationCandidates k).get i) : ℕ∞)⟩
      ∧ (∀ e ∈ modulationCandidates k,
            candDist g ((modulationCandidates k).get i) ≤ candDist g e)
      ∧ ∀ j : Fin (modulationCandidates k).length, (j : ℕ) < (i : ℕ) →
            candDist g ((modulationCandidates k).get i)
              < candDist g ((modulationCandidates k).get j) := by
  have hflat := foldl_harmony_flatten g (get_common_modulation_keys k) ⟨none, none, none, ⊤⟩
  rcases foldl_detect_spec g (modulationCandidates k) ⟨none, none, none, ⊤⟩ with
    ⟨_, hall⟩ | ⟨i, heq, _, hmin, hfirst⟩
  · exfalso
    have hlen : (modulationCandidates k).length = 28 := modCands_length k
    have hne : modulationCandidates k ≠ [] := by
      intro hnil
      rw [hnil] at hlen
      simp at hlen
    obtain ⟨e, he⟩ := List.exists_mem_of_ne_nil _ hne
    have htop := hall e he
    simp at htop
  · refine ⟨i, ?_, hmin, hfirst⟩
    have hst : (get_common_modulation_keys k).foldl
        (fun st ck => (get_key_harmony_named ck).foldl (detectStep g ck) st)
        ⟨none, none, none, ⊤⟩ = candState g ((modulationCandidates k).get i) := by
      rw [hflat]
      exact heq
    simp only [detect_chord_with_modulation, hst, candState]

/-! ## Further shared lemmas -/

theorem card3 (a b c : ℤ) (h1 : a ≠ b) (h2 : a ≠ c) (h3 : b ≠ c) :
    ({a, b, c} : Finset ℤ).card = 3 := by
  rw [Finset.card_insert_of_not_mem (by simp [h1, h2]),
    Finset.card_insert_of_not_mem (by simp [h3]), Finset.card_singleton]

theorem fifthDown_helper : ∀ l : Letter,
    ((l.add 3).base + stepSemis (l.add 3) 4) % 12 = l.base % 12 := by
  decide

theorem triad_pcSet_eq (k : Key) (i : ℕ) :
    chordPCSet (triadAt k i)
      = {(k.scaleDeg i).pc, (k.scaleDeg ((i + 2) % 7)).pc, (k.scaleDeg ((i + 4) % 7)).pc} := by
  simp [chordPCSet, triadAt]

theorem triad_pcSet_card (k : Key) (i : ℕ) (hi : i < 7) :
    (chordPCSet (triadAt k i)).card = 3 := by
  rw [triad_pcSet_eq]
  obtain ⟨l, a, m⟩ := k
  interval_cases i <;> cases m <;>
    (apply card3 <;> simp only [pc_scaleDeg] <;> simp [Mode.intervalAt] <;> omega)

theorem foldl_lowest_head (p : Pitch) (rest : List Pitch)
    (h : ∀ q ∈ rest, p.ps ≤ q.ps) :
    rest.foldl (fun b q => if q.ps < b.ps then q else b) p = p := by
  induction rest with
  | nil => rfl
  | cons q t ih =>
    have hq : ¬ q.ps < p.ps := not_lt.mpr (h q (by simp))
    simp only [List.foldl_cons, if_neg hq]
    exact ih fun r hr => h r (by simp [hr])

/-- Each measure contributes exactly one event to the piano part: a chord
event matching `detect_chord_with_modulation`'s winner when the measure has at
least 3 pitched notes, a full-measure rest otherwise. -/
theorem measureEvents_singleton (base_key : Key) (m : Measure) :
    ∃ ev : AccompEvent, measureEvents base_key m = [ev]
      ∧ (3 ≤ (m.elements.filter MElement.isNote).length →
          ∃ c d,
            (detect_chord_with_modulation (m.elements.filter MElement.isNote) base_key).chord
              = some c
            ∧ (detect_chord_with_modulation (m.elements.filter MElement.isNote) base_key).degree
              = some d
            ∧ ev = AccompEvent.chordEv c m.duration (some d))
      ∧ ((m.elements.filter MElement.isNote).length < 3 →
          ev = AccompEvent.restEv m.duration) := by
  by_cases h3 : 3 ≤ (m.elements.filter MElement.isNote).length
  · obtain ⟨i, heq, -, -⟩ :=
      detect_spec (m.elements.filter MElement.isNote) base_key
    have hmem : (modulationCandidates base_key).get i ∈ modulationCandidates base_key :=
      List.get_mem _ i.1 i.2
    obtain ⟨ck, -, ideg, hideg, hshape⟩ := mem_modCands base_key _ hmem
    have hp3 : ((modulationCandidates base_key).get i).2.2.pitches.length = 3 := by
      rw [hshape]
      rfl
    refine ⟨AccompEvent.chordEv ((modulationCandidates base_key).get i).2.2 m.duration
      (some ((modulationCandidates base_key).get i).2.1), ?_, ?_, ?_⟩
    · simp only [measureEvents]
      rw [if_pos h3, heq]
      show (if ((modulationCandidates base_key).get i).2.2.pitches.length ≠ 0 then
              [AccompEvent.chordEv ((modulationCandidates base_key).get i).2.2 m.duration
                (some ((modulationCandidates base_key).get i).2.1)]
            else []) = _
      rw [hp3]
      simp
    · intro _
      exact ⟨_, _, by rw [heq], by rw [heq], rfl⟩
    · intro hlt
      omega
  · refine ⟨AccompEvent.restEv m.duration, ?_, ?_, ?_⟩
    · simp [measureEvents, if_neg h3]
    · intro h3'
      exact absurd h3' h3
    · intro _
      rfl

/-- A `flatMap` whose body always yields a singleton acts like `map`:
positions correspond one to one. -/
theorem flatMap_single (f : Measure → List AccompEvent)
    (h : ∀ m : Measure, ∃ ev, f m = [ev]) (ms : List Measure) :
    (ms.flatMap f).length = ms.length
    ∧ ∀ i, i < ms.length →
        [(ms.flatMap f).getD i (AccompEvent.restEv 0)] = f (ms.getD i ⟨[], 0⟩) := by
  induction ms with
  | nil => exact ⟨rfl, fun i hi => absurd hi (by simp)⟩
  | cons m tl ih =>
    obtain ⟨ev, hev⟩ := h m
    constructor
    · simp [List.flatMap_cons, hev, ih.1]
    · intro i hi
      match i with
      | 0 => simp [List.flatMap_cons, hev]
      | i + 1 =>
        have hi' : i < tl.length := by
          simp only [List.length_cons] at hi
          omega
        have := ih.2 i hi'
        simpa [List.flatMap_cons, hev] using this

theorem fileRows_length (f : AccompFile) :
    (fileRows f).length = fileRowCount f := by
  rcases hf : f.parsed with e | score
  · unfold fileRows fileRowCount
    rw [hf]
    rfl
  · unfold fileRows fileRowCount
    rw [hf]
    simp

theorem sum_fileRowCount (files : List AccompFile) :
    ((files.filter fun f => !fileFailed f).map fileRowCount).sum
      = (files.map fileRowCount).sum := by
  induction files with
  | nil => rfl
  | cons f t ih =>
    cases hfa : fileFailed f
    · simp [List.filter_cons, hfa, ih]
    · have h0 : fileRowCount f = 0 := by
        rcases hp : f.parsed with e | score
        · unfold fileRowCount
          rw [hp]
        · exfalso
          unfold fileFailed at hfa
          rw [hp] at hfa
          exact Bool.false_ne_true hfa
      simp [List.filter_cons, hfa, h0, ih]

theorem process_all_go (files : List AccompFile)
    (acc : List String × List (List (String × FeatureRow))) :
    ((files.foldl
        (fun acc f =>
          match process_xml_file f.parsed with
          | .ok df => (acc.1, acc.2 ++ [df.map fun r => (f.pieceName, r)])
          | .error e => (acc.1 ++ ["Error processing " ++ f.path ++ ": " ++ e], acc.2))
        acc).1.length = acc.1.length + (files.filter fileFailed).length)
    ∧ ((files.foldl
        (fun acc f =>
          match process_xml_file f.parsed with
          | .ok df => (acc.1, acc.2 ++ [df.map fun r => (f.pieceName, r)])
          | .error e => (acc.1 ++ ["Error processing " ++ f.path ++ ": " ++ e], acc.2))
        acc).2 = acc.2 ++ (files.filter fun f => !fileFailed f).map fileRows) := by
  induction files generalizing acc with
  | nil => simp
  | cons f t ih =>
    rcases hf : f.parsed with s | s
    · have hfail : fileFailed f = true := by
        unfold fileFailed
        rw [hf]
      have hstep : (match process_xml_file f.parsed with
            | Except.ok df => (acc.1, acc.2 ++ [df.map fun r => (f.pieceName, r)])
            | Except.error e =>
                (acc.1 ++ ["Error processing " ++ f.path ++ ": " ++ e], acc.2))
          = (acc.1 ++ ["Error processing " ++ f.path ++ ": " ++ s], acc.2) := by
        rw [hf]
        rfl
      rw [List.foldl_cons]
      rw [hstep]
      refine ⟨?_, ?_⟩
      · rw [(ih _).1]
        simp only [List.filter_cons, hfail, if_pos, List.length_append, List.length_cons,
          List.length_nil]
        omega
      · rw [(ih _).2]
        simp [List.filter_cons, hfail]
    · have hfail : fileFailed f = false := by
        unfold fileFailed
        rw [hf]
      have hrows : fileRows f
          = (s.accompChords.map fun elem =>
              extract_features_from_chord elem s.analyzedKey).map
              fun r => (f.pieceName, r) := by
        unfold fileRows
        rw [hf]
      have hstep : (match process_xml_file f.parsed with
            | Except.ok df => (acc.1, acc.2 ++ [df.map fun r => (f.pieceName, r)])
            | Except.error e =>
                (acc.1 ++ ["Error processing " ++ f.path ++ ": " ++ e], acc.2))
          = (acc.1, acc.2 ++ [fileRows f]) := by
        rw [hf, hrows]
        rfl
      rw [List.foldl_cons]
      rw [hstep]
      refine ⟨?_, ?_⟩
      · rw [(ih _).1]
        simp [List.filter_cons, hfail]
      · rw [(ih _).2]
        simp [List.filter_cons, hfail]

theorem base_sub_stepSemis_nat (l : Letter) (j : ℕ) (hj : j < 7) :
    (((l.add j).base : ℤ) - (stepSemis l j : ℤ)) % 12 = (l.base : ℤ) % 12 :=
  base_sub_stepSemis l ⟨j, hj⟩

/-! ## Claims -/

/-- C1: `bestMatch` iterates the 4 candidate keys in `ModulationCandidateSet`
order and, within each key, the 7 triads in scale-degree order, keeping the
running minimum under strict less-than: the returned key, chord, degree and
distance are those of the flattened candidate at the least index attaining
the minimal distance — among equal-minimal-distance candidates, the one whose
key appears earliest in [home, fifth-up, fifth-down, relative] and, within
that key, with the lowest scale-degree index. -/
theorem bestMatch_first_minimal (g : List MElement) (k : Key) :
    ∃ i : Fin (modulationCandidates k).length,
      detect_chord_with_modulation g k =
        ⟨some ((modulationCandidates k).get i).1,
         some ((modulationCandidates k).get i).2.2,
         some ((modulationCandidates k).get i).2.1,
         (candDist g ((modulationCandidates k).get i) : ℕ∞)⟩
      ∧ (∀ e ∈ modulationCandidates k,
            candDist g ((modulationCandidates k).get i) ≤ candDist g e)
      ∧ ∀ j : Fin (modulationCandidates k).length, (j : ℕ) < (i : ℕ) →
            candDist g ((modulationCandidates k).get i)
              < candDist g ((modulationCandidates k).get j) :=
  detect_spec g k

/-- C10: `bestMatch` is total: for every note group (the empty one included)
and home key it scans all 4 × 7 = 28 candidates, so its chord, key and degree
are all non-`None` and its distance is a finite natural number. -/
theorem bestMatch_total_and_defined (g : List MElement) (k : Key) :
    (modulationCandidates k).length = 28
    ∧ ∃ (K : Key) (c : Chord) (d : String) (n : ℕ),
        detect_chord_with_modulation g k = ⟨some K, some c, some d, (n : ℕ∞)⟩ := by
  refine ⟨modCands_length k, ?_⟩
  obtain ⟨i, heq, -, -⟩ := detect_spec g k
  exact ⟨_, _, _, _, heq⟩

/-- C7: for a note group with at least 3 pitched notes, the distance returned
by `bestMatch` is at most the distance of every one of the home key's own 7
diatonic triads — modulation search never underperforms the no-modulation
baseline. -/
theorem bestMatch_beats_home_key (g : List MElement) (k : Key)
    (_h : 3 ≤ (g.filter MElement.isNote).length) :
    ∀ dc ∈ get_key_harmony_named k,
      (detect_chord_with_modulation g k).distance
        ≤ (chord_distance_no_octave dc.2 g : ℕ∞) := by
  intro dc hdc
  obtain ⟨i, heq, hmin, -⟩ := detect_spec g k
  rw [heq]
  have hmem : (k, dc) ∈ modulationCandidates k := by
    simp only [modulationCandidates, List.mem_flatMap]
    refine ⟨k, by simp [get_common_modulation_keys], ?_⟩
    simp only [List.mem_map]
    exact ⟨dc, hdc, rfl⟩
  have hle := hmin (k, dc) hmem
  show (candDist g ((modulationCandidates k).get i) : ℕ∞) ≤ _
  exact_mod_cast hle

theorem bestMatch_beats_home_key_witness :
    3 ≤ (cTriadGroup.filter MElement.isNote).length
    ∧ ∀ dc ∈ get_key_harmony_named cMajorKey,
        (detect_chord_with_modulation cTriadGroup cMajorKey).distance
          ≤ (chord_distance_no_octave dc.2 cTriadGroup : ℕ∞) :=
  ⟨by decide, bestMatch_beats_home_key cTriadGroup cMajorKey (by decide)⟩

/-- C6: the chord-to-note-group distance is the cardinality of the symmetric
difference between the chord's pitch-name set and the set of names of the
pitched (non-rest) notes of the group, and it is 0 exactly when the two sets
are equal. -/
theorem distance_is_symmetric_difference (c : Chord) (g : List MElement) :
    chord_distance_no_octave c g = (symmDiff (chordNameSet c) (groupNameSet g)).card
    ∧ (chord_distance_no_octave c g = 0 ↔ chordNameSet c = groupNameSet g) := by
  refine ⟨rfl, ?_⟩
  unfold chord_distance_no_octave
  rw [Finset.card_eq_zero, ← Finset.bot_eq_empty, symmDiff_eq_bot]

/-- C2: `candidates(key)` is exactly the 4-element ordered list
[home, fifth-up, fifth-down, relative]: the fifth-up and fifth-down keys keep
the home mode and sit a perfect fifth (4 letter steps; +7 resp. −7 ≡ +5
semitones) from the home tonic, and the relative key has the opposite mode
with the tonic of the relative major/minor (+9 semitones from a major home
tonic, +3 from a minor one); duplicates would be kept as-is since the list is
built positionally. -/
theorem candidates_fixed_order (k : Key) :
    ∃ fifth_up fifth_down rel : Key,
      get_common_modulation_keys k = [k, fifth_up, fifth_down, rel]
      ∧ fifth_up.mode = k.mode
      ∧ fifth_up.tonicLetter = k.tonicLetter.add 4
      ∧ fifth_up.tonicPC = (k.tonicPC + 7) % 12
      ∧ fifth_down.mode = k.mode
      ∧ fifth_down.tonicLetter = k.tonicLetter.add 3
      ∧ fifth_down.tonicPC = (k.tonicPC + 5) % 12
      ∧ rel.mode = k.mode.opposite
      ∧ rel.tonicPC = (k.tonicPC + (if k.mode = Mode.major then 9 else 3)) % 12 := by
  obtain ⟨l, a, m⟩ := k
  have hup : ∀ mo : Mode, (Key.mk (fifthUpTonic l a).1 (fifthUpTonic l a).2 mo).tonicPC
      = ((Key.mk l a mo).tonicPC + 7) % 12 := by
    intro mo
    show (((l.add 4).base : ℤ) + (a + 7 - (stepSemis l 4 : ℤ))) % 12 = _
    have h := base_sub_stepSemis_nat l 4 (by norm_num)
    show _ = (((l.base : ℤ) + a) % 12 + 7) % 12
    omega
  have hdown : ∀ mo : Mode, (Key.mk (fifthDownTonic l a).1 (fifthDownTonic l a).2 mo).tonicPC
      = ((Key.mk l a mo).tonicPC + 5) % 12 := by
    intro mo
    show (((l.add 3).base : ℤ) + (a - 7 + (stepSemis (l.add 3) 4 : ℤ))) % 12 = _
    have hdh := fifthDown_helper l
    show _ = (((l.base : ℤ) + a) % 12 + 5) % 12
    omega
  cases m
  · refine ⟨_, _, _, rfl, rfl, rfl, hup Mode.major, rfl, rfl, hdown Mode.major, rfl, ?_⟩
    show ((Key.mk l a Mode.major).scaleDeg 5).pc = _
    rw [pc_scaleDeg]
    dsimp only
    show _ = (((l.base : ℤ) + a) % 12 + 9) % 12
    have hIv : (Mode.major.intervalAt 5 : ℤ) = 9 := by norm_num [Mode.intervalAt]
    rw [hIv]
    omega
  · refine ⟨_, _, _, rfl, rfl, rfl, hup Mode.minor, rfl, rfl, hdown Mode.minor, rfl, ?_⟩
    show ((Key.mk l a Mode.minor).scaleDeg 2).pc = _
    rw [pc_scaleDeg]
    dsimp only
    show _ = (((l.base : ℤ) + a) % 12 + 3) % 12
    have hIv : (Mode.minor.intervalAt 2 : ℤ) = 3 := by norm_num [Mode.intervalAt]
    rw [hIv]
    omega

/-- C5: for every key, `buildTriads` returns exactly 7 chords whose degree
labels are the mode's Roman-numeral list, and the triad at scale index `i` has
pitch classes exactly {scale[i], scale[(i+2) mod 7], scale[(i+4) mod 7]},
a 3-element pitch-class set. -/
theorem buildTriads_structure (k : Key) :
    (get_key_harmony_named k).length = 7
    ∧ (get_key_harmony_named k).map Prod.fst
        = (match k.mode with
           | Mode.major => ["I", "ii", "iii", "IV", "V", "vi", "vii°"]
           | Mode.minor => ["i", "ii°", "III", "iv", "v", "VI", "VII"])
    ∧ ∀ i : ℕ, i < 7 →
        chordPCSet ((get_key_harmony_named k).getD i ("", ⟨[]⟩)).2
          = {(k.scaleDeg i).pc, (k.scaleDeg ((i + 2) % 7)).pc, (k.scaleDeg ((i + 4) % 7)).pc}
        ∧ (chordPCSet ((get_key_harmony_named k).getD i ("", ⟨[]⟩)).2).card = 3 := by
  refine ⟨harmony_length k, ?_, ?_⟩
  · obtain ⟨l, a, m⟩ := k
    cases m <;> rfl
  · intro i hi
    have hg : ((get_key_harmony_named k).getD i ("", ⟨[]⟩)).2 = triadAt k i := by
      rw [harmony_explicit k]
      interval_cases i <;> rfl
    rw [hg]
    exact ⟨triad_pcSet_eq k i, triad_pcSet_card k i hi⟩

theorem buildTriads_structure_witness :
    (0 : ℕ) < 7
    ∧ chordPCSet ((get_key_harmony_named cMajorKey).getD 0 ("", ⟨[]⟩)).2
        = {(cMajorKey.scaleDeg 0).pc, (cMajorKey.scaleDeg ((0 + 2) % 7)).pc,
           (cMajorKey.scaleDeg ((0 + 4) % 7)).pc}
    ∧ (chordPCSet ((get_key_harmony_named cMajorKey).getD 0 ("", ⟨[]⟩)).2).card = 3 :=
  ⟨by norm_num,
   ((buildTriads_structure cMajorKey).2.2 0 (by norm_num)).1,
   ((buildTriads_structure cMajorKey).2.2 0 (by norm_num)).2⟩

/-- C8: on a note group with no pitched notes every one of the 28 candidate
triads is at distance 3, and `bestMatch` deterministically returns the home
key's first scale degree ("I" in major, "i" in minor) with distance 3. -/
theorem bestMatch_no_pitched_notes (g : List MElement) (k : Key)
    (h : g.filter MElement.isNote = []) :
    (∀ e ∈ modulationCandidates k, candDist g e = 3)
    ∧ detect_chord_with_modulation g k
        = ⟨some k, some (triadAt k 0),
           some (match k.mode with | Mode.major => "I" | Mode.minor => "i"),
           ((3 : ℕ) : ℕ∞)⟩ := by
  have hnm : groupNameSet g = ∅ := by
    unfold groupNameSet
    have hfm : g.filterMap MElement.noteName = [] := by
      rw [List.filterMap_eq_nil_iff]
      intro a ha
      have hnot := List.filter_eq_nil_iff.mp h a ha
      cases a
      · simp [MElement.isNote] at hnot
      · rfl
    rw [hfm]
    rfl
  have hdist : ∀ e ∈ modulationCandidates k, candDist g e = 3 := by
    intro e he
    obtain ⟨ck, -, i, hi, rfl⟩ := mem_modCands k e he
    show chord_distance_no_octave (triadAt ck i) g = 3
    unfold chord_distance_no_octave
    rw [hnm, ← Finset.bot_eq_empty, symmDiff_bot]
    exact triad_nameSet_card ck i hi
  refine ⟨hdist, ?_⟩
  obtain ⟨i, heq, -, hfirst⟩ := detect_spec g k
  have h0 : 0 < (modulationCandidates k).length := lt_of_le_of_lt (Nat.zero_le _) i.isLt
  have hi0 : (i : ℕ) = 0 := by
    by_contra hne
    have hlt := hfirst ⟨0, h0⟩ (Nat.pos_of_ne_zero hne)
    rw [hdist _ (List.get_mem _ i.1 i.2), hdist _ (List.get_mem _ 0 h0)] at hlt
    exact lt_irrefl 3 hlt
  have hget : (modulationCandidates k).get i
      = (k, (match k.mode with | Mode.major => "I" | Mode.minor => "i"), triadAt k 0) := by
    have hie : i = ⟨0, h0⟩ := Fin.ext hi0
    rw [hie]
    obtain ⟨l, a, m⟩ := k
    cases m <;> rfl
  have hd3 : candDist g ((modulationCandidates k).get i) = 3 :=
    hdist _ (List.get_mem _ i.1 i.2)
  rw [heq, hget]
  rw [hget] at hd3
  rw [hd3]

theorem bestMatch_no_pitched_notes_witness :
    allRestGroup.filter MElement.isNote = []
    ∧ (∀ e ∈ modulationCandidates cMajorKey, candDist allRestGroup e = 3)
    ∧ detect_chord_with_modulation allRestGroup cMajorKey
        = ⟨some cMajorKey, some (triadAt cMajorKey 0), some "I", ((3 : ℕ) : ℕ∞)⟩ := by
  have h := bestMatch_no_pitched_notes allRestGroup cMajorKey (by decide)
  exact ⟨by decide, h.1, h.2⟩

/-- C3: `harmonize` emits exactly one event per measure, in order: a rest
spanning the measure's duration when the measure has fewer than 3 pitched
notes, and otherwise the winning chord of `bestMatch`, stamped with the
measure's duration and the winning degree label. -/
theorem harmonizer_one_event_per_measure (measures : List Measure) (base_key : Key) :
    (generate_piano_events measures base_key).length = measures.length
    ∧ ∀ i : ℕ, i < measures.length →
        (((measures.getD i ⟨[], 0⟩).elements.filter MElement.isNote).length < 3 →
          (generate_piano_events measures base_key).getD i (AccompEvent.restEv 0)
            = AccompEvent.restEv (measures.getD i ⟨[], 0⟩).duration)
        ∧ (3 ≤ ((measures.getD i ⟨[], 0⟩).elements.filter MElement.isNote).length →
          ∃ c d,
            (detect_chord_with_modulation
                ((measures.getD i ⟨[], 0⟩).elements.filter MElement.isNote) base_key).chord
              = some c
            ∧ (detect_chord_with_modulation
                ((measures.getD i ⟨[], 0⟩).elements.filter MElement.isNote) base_key).degree
              = some d
            ∧ (generate_piano_events measures base_key).getD i (AccompEvent.restEv 0)
                = AccompEvent.chordEv c (measures.getD i ⟨[], 0⟩).duration (some d)) := by
  have hbody : ∀ m : Measure, ∃ ev, measureEvents base_key m = [ev] := fun m =>
    (measureEvents_singleton base_key m).elim fun ev hev => ⟨ev, hev.1⟩
  have hgen : generate_piano_events measures base_key
      = measures.flatMap (measureEvents base_key) := rfl
  obtain ⟨hlen, hpos⟩ := flatMap_single (measureEvents base_key) hbody measures
  rw [hgen]
  refine ⟨hlen, ?_⟩
  intro i hi
  obtain ⟨ev, hev1, hevc, hevr⟩ := measureEvents_singleton base_key (measures.getD i ⟨[], 0⟩)
  have hpi := hpos i hi
  rw [hev1] at hpi
  have hgetd : (measures.flatMap (measureEvents base_key)).getD i (AccompEvent.restEv 0)
      = ev := by
    injection hpi
  constructor
  · intro hlt
    rw [hgetd, hevr hlt]
  · intro h3
    obtain ⟨c, d, hc, hd, hev⟩ := hevc h3
    exact ⟨c, d, hc, hd, by rw [hgetd, hev]⟩

theorem harmonizer_one_event_per_measure_witness :
    (generate_piano_events [fullMeasure, sparseMeasure] cMajorKey).length = 2
    ∧ (1 : ℕ) < 2
    ∧ (sparseMeasure.elements.filter MElement.isNote).length < 3
    ∧ (generate_piano_events [fullMeasure, sparseMeasure] cMajorKey).getD 1
        (AccompEvent.restEv 0) = AccompEvent.restEv 4 := by
  have h := harmonizer_one_event_per_measure [fullMeasure, sparseMeasure] cMajorKey
  exact ⟨h.1, by norm_num, by decide, (h.2 1 (by norm_num)).1 (by decide)⟩

/-- C4 (counterexample): a collection whose only piece fails to parse is
logged — but the batch then aborts: `pd.concat` on the empty frame list
raises, so the aggregation does not return a (zero-row) table, refuting the
claim's unconditional "never aborts" / row-count equation. -/
theorem aggregate_aborts_when_all_fail :
    (process_all_accomp_files [badFile]).1
        = ["Error processing data/bad/Broken Accomp.xml: failed to parse"]
    ∧ (process_all_accomp_files [badFile]).2
        = Except.error "No objects to concatenate" := by
  constructor
  · rfl
  · rfl

/-- C4 (amended): provided at least one piece parses successfully, the
aggregation completes without aborting: each failing piece is logged and
contributes zero rows, and the table's row count equals the total chord-event
count of the well-formed pieces only. -/
theorem aggregate_isolates_failures (files : List AccompFile)
    (h : ∃ f ∈ files, fileFailed f = false) :
    ∃ table, (process_all_accomp_files files).2 = Except.ok table
      ∧ table.length = (files.map fileRowCount).sum
      ∧ (process_all_accomp_files files).1.length = (files.filter fileFailed).length := by
  obtain ⟨hlog, hdfs⟩ := process_all_go files ([], [])
  have hfilter_ne : (files.filter fun f => !fileFailed f) ≠ [] := by
    intro hnil
    obtain ⟨f0, hf0mem, hf0ok⟩ := h
    have := List.filter_eq_nil_iff.mp hnil f0 hf0mem
    simp [hf0ok] at this
  simp only [process_all_accomp_files]
  rw [hdfs, List.nil_append]
  have hne : ¬ (((files.filter fun f => !fileFailed f).map fileRows).isEmpty = true) := by
    simp only [List.isEmpty_eq_true, List.map_eq_nil_iff]
    exact hfilter_ne
  rw [if_neg hne]
  refine ⟨_, rfl, ?_, ?_⟩
  · rw [List.length_flatten, List.map_map]
    have hcomp : (List.length ∘ fileRows) = fileRowCount := funext fileRows_length
    rw [hcomp, sum_fileRowCount]
  · rw [hlog]
    simp

theorem aggregate_isolates_failures_witness :
    (∃ f ∈ [goodFile, badFile], fileFailed f = false)
    ∧ ∃ table, (process_all_accomp_files [goodFile, badFile]).2 = Except.ok table
        ∧ table.length = ([goodFile, badFile].map fileRowCount).sum
        ∧ (process_all_accomp_files [goodFile, badFile]).1.length
            = ([goodFile, badFile].filter fileFailed).length :=
  ⟨by decide, aggregate_isolates_failures [goodFile, badFile] (by decide)⟩

/-- C9 (counterexample): on the chord event `[A4, C4, E4]` — the shape the
pipeline's own wraparound triads take — the encoded `bass` field is the name
of the first listed pitch (A), not the name of the lowest-sounding pitch (C). -/
theorem encode_bass_not_lowest :
    (extract_features_from_chord wrapChord none).bass ≠ lowestSoundingName wrapChord.pitches
    ∧ lowestSoundingName wrapChord.pitches = some (Letter.C, 0)
    ∧ (extract_features_from_chord wrapChord none).bass = some (Letter.A, 0) := by
  refine ⟨?_, by decide, ?_⟩
  · decide
  · decide

/-- C9 (amended): the `bass` field of the feature row is the pitch-class name
of the chord's *first listed* pitch; it coincides with the lowest-sounding
pitch's name whenever the first pitch attains the minimal pitch height (e.g.
for ascending-ordered chords). -/
theorem encode_bass_first_pitch (ch : MChord) (current_key : Option Key)
    (h : ch.pitches ≠ []) :
    ∃ p rest, ch.pitches = p :: rest
      ∧ (extract_features_from_chord ch current_key).bass = some p.name
      ∧ ((∀ q ∈ ch.pitches, p.ps ≤ q.ps) →
          (extract_features_from_chord ch current_key).bass
            = lowestSoundingName ch.pitches) := by
  rcases hx : ch.pitches with - | ⟨p, rest⟩
  · exact absurd hx h
  · refine ⟨p, rest, rfl, ?_, ?_⟩
    · simp [extract_features_from_chord, hx]
    · intro hmin
      have hlow : lowestSounding (p :: rest) = some p := by
        show some (rest.foldl (fun b q => if q.ps < b.ps then q else b) p) = some p
        rw [foldl_lowest_head p rest]
        intro q hq
        exact hmin q (List.mem_cons_of_mem p hq)
      show _ = lowestSoundingName (p :: rest)
      unfold lowestSoundingName
      rw [hlow]
      simp [extract_features_from_chord, hx, Pitch.name]

theorem encode_bass_first_pitch_witness :
    ascChord.pitches ≠ []
    ∧ ∃ p rest, ascChord.pitches = p :: rest
        ∧ (extract_features_from_chord ascChord none).bass = some p.name
        ∧ ((∀ q ∈ ascChord.pitches, p.ps ≤ q.ps) →
            (extract_features_from_chord ascChord none).bass
              = lowestSoundingName ascChord.pitches) :=
  ⟨by decide, encode_bass_first_pitch ascChord none (by decide)⟩
